import Mathlib

/-!
Shallow embedding of the avocado parameter-multiplexing engine
(`src/avocado/plugins/yaml_to_mux.py`) and the parts of the base tree module
(`avocado/core/tree.py`) that it builds on.  Values carried by nodes are
modelled as association lists of strings; machine-level details (yaml parsing,
file IO) are parameters of the definitions that need them.

The base tree module is not part of the sources, so its operations
(the base part of `merge`, `path`, `fingerprint`, the preorder traversal and
`detach`) are modelled from the specification; every such definition carries a
doc comment saying so.  Everything else is translated from
`src/avocado/plugins/yaml_to_mux.py`.
-/

namespace YamlToMux

/-! ## String helpers (models of Python string primitives) -/

/-- Python's `str.rstrip('/')`: drop every trailing `'/'`. -/
def rstripSlash (s : String) : String :=
  String.mk ((s.toList.reverse.dropWhile (fun c => c = '/')).reverse)

/-- `path_parent` from `yaml_to_mux.py` lines 280-290:
`path.rpartition('/')[0]`, with `'/'` returned when that prefix is empty. -/
def path_parent (path : String) : String :=
  let parent := String.mk (((path.toList.reverse.dropWhile (fun c => c ≠ '/')).drop 1).reverse)
  if parent = "" then "/" else parent

/-- Lexicographic (code-point) comparison of char lists, the order Python uses
when comparing the path strings of tree nodes. -/
def lexLe : List Char → List Char → Bool
  | [], _ => true
  | _ :: _, [] => false
  | a :: as, b :: bs => if a = b then lexLe as bs else decide (a < b)

/-- Comparison used by `variant.sort(key=lambda x: x.path)`. -/
def pathLe (a b : String) : Bool := lexLe a.toList b.toList

/-! ## Tree nodes

`MuxTreeNode` (yaml_to_mux.py lines 65-91) extends the base `TreeNode` of
`avocado/core/tree.py` with the tri-state `multiplex` flag.  The base class is
not under the sources, so its fields are modelled from the specification §3:
`name`, a `value` mapping, ordered `children`, and the queue of pending
tombstone controls (`ctrl`).  The parent back-reference is not stored; paths
are computed by threading the parent path through each traversal. -/

/-- A pending tombstone control (`remove-node` / `remove-value`).
Modelled from the spec: §3 `pending_controls` and §4.2 step 4. -/
inductive Ctrl : Type where
  | removeNode (name : String)
  | removeValue (key : String)
deriving DecidableEq, Repr

inductive MuxTreeNode : Type where
  | mk (name : String) (value : List (String × String)) (multiplex : Option Bool)
       (ctrl : List Ctrl) (children : List MuxTreeNode)
deriving Repr

def MuxTreeNode.name : MuxTreeNode → String
  | .mk n _ _ _ _ => n

def MuxTreeNode.value : MuxTreeNode → List (String × String)
  | .mk _ v _ _ _ => v

def MuxTreeNode.multiplex : MuxTreeNode → Option Bool
  | .mk _ _ m _ _ => m

def MuxTreeNode.ctrl : MuxTreeNode → List Ctrl
  | .mk _ _ _ c _ => c

def MuxTreeNode.children : MuxTreeNode → List MuxTreeNode
  | .mk _ _ _ _ cs => cs

/-! ## Merge engine -/

/-- One `target.value[key] = v` update of the value mapping
(`incoming` keys overwrite or insert).  Modelled from the spec: §4.2 step 1. -/
def assocSet (m : List (String × String)) (k v : String) : List (String × String) :=
  if m.any (fun kv => kv.1 = k) then
    m.map (fun kv => if kv.1 = k then (k, v) else kv)
  else m ++ [(k, v)]

/-- Application of one pending control to (value, children, queue).
Modelled from the spec: §4.2 step 4 — a control is resolved immediately when
its target exists, otherwise it stays queued. -/
def applyCtrl (s : List (String × String) × List MuxTreeNode × List Ctrl) (c : Ctrl) :
    List (String × String) × List MuxTreeNode × List Ctrl :=
  match c with
  | .removeNode n =>
    if s.2.1.any (fun x => x.name = n) then
      (s.1, s.2.1.filter (fun x => x.name ≠ n), s.2.2)
    else (s.1, s.2.1, s.2.2 ++ [c])
  | .removeValue k =>
    if s.1.any (fun kv => kv.1 = k) then
      (s.1.filter (fun kv => kv.1 ≠ k), s.2.1, s.2.2)
    else (s.1, s.2.1, s.2.2 ++ [c])

def applyCtrls (s : List (String × String) × List MuxTreeNode × List Ctrl)
    (cs : List Ctrl) : List (String × String) × List MuxTreeNode × List Ctrl :=
  cs.foldl applyCtrl s

/-- Replace the first child named `n` by `r`. -/
def replaceChild (ts : List MuxTreeNode) (n : String) (r : MuxTreeNode) : List MuxTreeNode :=
  match ts with
  | [] => []
  | x :: xs => if x.name = n then r :: xs else x :: replaceChild xs n r

mutual

/-- `MuxTreeNode.merge` (yaml_to_mux.py lines 79-91): the multiplex-flag
handling is translated from those lines (`True`/`False` on `other` overwrite,
anything else keeps the target's flag).  The base-class part — value-mapping
override, name-matched recursive child merge, tombstone application — lives in
`avocado/core/tree.py`, which is not under the sources; it is
Modelled from the spec: §4.2 steps 1, 3 and 4. -/
def MuxTreeNode.merge (t o : MuxTreeNode) : MuxTreeNode :=
  match o with
  | .mk _ oval omux octrl ochildren =>
    let value := oval.foldl (fun m kv => assocSet m kv.1 kv.2) t.value
    let multiplex := if omux = some true then some true
      else if omux = some false then some false
      else t.multiplex
    let children := mergeChildren t.children ochildren
    let s := applyCtrls (value, children, t.ctrl) octrl
    .mk t.name s.1 multiplex s.2.2 s.2.1
termination_by structural o

/-- Child merge: each incoming child is merged into the same-named existing
child when there is one, and appended (in incoming order) otherwise.
Modelled from the spec: §4.2 step 3 (base `TreeNode.merge`, not under src). -/
def mergeChildren (ts os : List MuxTreeNode) : List MuxTreeNode :=
  match os with
  | [] => ts
  | c :: rest =>
    match ts.find? (fun x => x.name = c.name) with
    | some found => mergeChildren (replaceChild ts c.name (found.merge c)) rest
    | none => mergeChildren (ts ++ [c]) rest
termination_by structural os

end

/-! ## Multiplex partitioner and enumerator (`MuxTree`, yaml_to_mux.py 337-384)

`MuxTree.__init__` walks the tree in preorder without descending below leaves
or multiplex-flagged nodes (`_iter_mux_leaves`), collecting one pool per such
node: a leaf contributes itself, a multiplex node contributes the list of
`MuxTree`s of its children.  `MuxTree.__iter__` chains each child-`MuxTree`'s
variants into one alternative list per pool and takes the Cartesian product,
flattening every combination into a single variant.

A leaf node used as a pool stands for the single alternative consisting of
just that leaf (the iteration protocol of the base `TreeNode` is not under the
sources; Modelled from the spec: §4.4, a leaf "is its own singleton Pool").

Each leaf is recorded with its slash-joined path (the base class's `path`
property is not under the sources; Modelled from the spec: §3, slash-joined
names from the root, whose own name is the empty string). -/

/-- A leaf as seen by the enumerator: its path, name and value mapping. -/
structure Leaf : Type where
  path : String
  name : String
  value : List (String × String)
deriving DecidableEq, Repr

/-- Insertion of a leaf into a path-sorted list, before the first element it
compares `<=` to. -/
def insertLeaf (x : Leaf) : List Leaf → List Leaf
  | [] => [x]
  | y :: ys => if pathLe x.path y.path then x :: y :: ys else y :: insertLeaf x ys

/-- `variant.sort(key=lambda x: x.path)` (yaml_to_mux.py line 401): a stable
sort of the leaves by path, modelled as insertion sort (Python's sort is also
stable, so the results agree). -/
def sortLeaves : List Leaf → List Leaf
  | [] => []
  | x :: xs => insertLeaf x (sortLeaves xs)

/-- `TreeNode.fingerprint` is not under the sources.
Modelled from the spec: §4.5/glossary, "a stable representation of its path
plus its value mapping". -/
def Leaf.fingerprint (l : Leaf) : String :=
  l.path ++ l.value.foldl (fun acc kv => acc ++ "," ++ kv.1 ++ ":" ++ kv.2) ""

/-- Lazy Cartesian product of `itertools.product(*pools)` followed by the
per-combination flattening `list(itertools.chain(*combination))`
(yaml_to_mux.py lines 380-384), as the list of all flattened combinations in
product order (the last pool varies fastest). -/
def cartProd : List (List (List Leaf)) → List (List Leaf)
  | [] => [[]]
  | pool :: rest => pool.flatMap (fun alt => (cartProd rest).map (fun tail => alt ++ tail))

mutual

/-- The pools contributed by the subtree rooted at a node whose path is `p`
(`MuxTree.__init__` + `_iter_mux_leaves`, yaml_to_mux.py lines 345-368), with
each pool already resolved to its list of alternatives as `MuxTree.__iter__`
does (lines 374-379): a leaf pool has the single alternative `[leaf]`, a
multiplex pool's alternatives are the concatenated variants of its children's
`MuxTree`s. -/
def poolsAt (p : String) (t : MuxTreeNode) : List (List (List Leaf)) :=
  match t with
  | .mk n v _ _ [] => [[[⟨p, n, v⟩]]]
  | .mk _ _ m _ (c :: cs) =>
    if m = some true then [muxAlternatives p (c :: cs)]
    else poolsAt (p ++ "/" ++ c.name) c ++ poolsForest p cs
termination_by structural t

/-- Pools of a forest of siblings below the node at path `p`, in order
(the preorder of `_iter_mux_leaves`). -/
def poolsForest (p : String) (cs : List MuxTreeNode) : List (List (List Leaf)) :=
  match cs with
  | [] => []
  | c :: rest => poolsAt (p ++ "/" ++ c.name) c ++ poolsForest p rest
termination_by structural cs

/-- Alternatives of a multiplex pool: `itertools.chain(*[MuxTree(child) ...])`
— the variants of every child's `MuxTree`, concatenated in child order. -/
def muxAlternatives (p : String) (cs : List MuxTreeNode) : List (List Leaf) :=
  match cs with
  | [] => []
  | c :: rest => cartProd (poolsAt (p ++ "/" ++ c.name) c) ++ muxAlternatives p rest
termination_by structural cs

end

/-- The pools of `MuxTree(root)`.  `_iter_mux_leaves` starts from the object
passed in, yielding nothing when it is `None`, and treats the root's own name
as its path. -/
def MuxTree.pools (root : Option MuxTreeNode) : List (List (List Leaf)) :=
  match root with
  | none => []
  | some t => poolsAt t.name t

/-- The full variant sequence produced by iterating `MuxTree(root)`
(yaml_to_mux.py lines 370-384). -/
def MuxTree.variants (root : Option MuxTreeNode) : List (List Leaf) :=
  cartProd (MuxTree.pools root)

mutual

/-- The leaves of the subtree rooted at a node with path `p`, in preorder. -/
def leavesAt (p : String) (t : MuxTreeNode) : List Leaf :=
  match t with
  | .mk n v _ _ [] => [⟨p, n, v⟩]
  | .mk _ _ _ _ (c :: cs) => leavesAt (p ++ "/" ++ c.name) c ++ leavesForest p cs
termination_by structural t

def leavesForest (p : String) (cs : List MuxTreeNode) : List Leaf :=
  match cs with
  | [] => []
  | c :: rest => leavesAt (p ++ "/" ++ c.name) c ++ leavesForest p rest
termination_by structural cs

end

mutual

/-- `true` when no node of the subtree has `multiplex == True`
(`_iter_mux_leaves` treats exactly `multiplex is True` as a domain boundary:
`getattr(node, "multiplex", False)` is falsy for both `None` and `False`). -/
def noMux (t : MuxTreeNode) : Bool :=
  match t with
  | .mk _ _ m _ cs => decide (m ≠ some true) && noMuxForest cs
termination_by structural t

def noMuxForest (cs : List MuxTreeNode) : Bool :=
  match cs with
  | [] => true
  | c :: rest => noMux c && noMuxForest rest
termination_by structural cs

end

mutual

/-- `true` when every multiplex domain in the subtree is independent
(non-nested): below a multiplex-flagged node no further multiplex flag
occurs. -/
def nonNested (t : MuxTreeNode) : Bool :=
  match t with
  | .mk _ _ m _ cs =>
    if m = some true then noMuxForest cs else nonNestedForest cs
termination_by structural t

def nonNestedForest (cs : List MuxTreeNode) : Bool :=
  match cs with
  | [] => true
  | c :: rest => nonNested c && nonNestedForest rest
termination_by structural cs

end

mutual

/-- The sizes of the multiplex domains of the tree, in the order the
partitioner discovers them: a non-leaf node with `multiplex == True`
contributes the number of its children (leaf pools contribute nothing). -/
def domainSizes (t : MuxTreeNode) : List Nat :=
  match t with
  | .mk _ _ _ _ [] => []
  | .mk _ _ m _ (c :: cs) =>
    if m = some true then [(c :: cs).length]
    else domainSizes c ++ domainSizesForest cs
termination_by structural t

def domainSizesForest (cs : List MuxTreeNode) : List Nat :=
  match cs with
  | [] => []
  | c :: rest => domainSizes c ++ domainSizesForest rest
termination_by structural cs

end

/-! ## Filter engine (`apply_filters`, yaml_to_mux.py 293-334)

The per-node keep/remove decision is translated literally from the two rule
loops of `apply_filters`.  The traversal itself uses the base class's
`iter_children_preorder` and `detach`, which are not under the sources;
Modelled from the spec: §4.3 — preorder over all nodes, a detached node takes
its whole subtree with it, and the root (whose path is the empty name and
which no non-empty rule can match) stays. -/

/-- The `filter_only` loop (lines 317-325): an exact path match keeps the node
and stops; a rule whose parent-path equals the node's parent's path marks the
node for removal and continues. -/
def onlyLoop (np pp : String) : List String → Bool → Bool
  | [], keep => keep
  | p :: rest, keep =>
    if p = "" then onlyLoop np pp rest keep
    else if np = p then true
    else if pp = path_parent p then onlyLoop np pp rest false
    else onlyLoop np pp rest keep

/-- The `filter_out` loop (lines 326-331): an exact path match removes the
node and stops. -/
def outLoop (np : String) : List String → Bool → Bool
  | [], keep => keep
  | p :: rest, keep =>
    if p = "" then outLoop np rest keep
    else if np = p then false
    else outLoop np rest keep

/-- The complete keep/remove decision for a non-root node with path `np`
whose parent has path `pp` (`keep_node` in the source, starting at `True`). -/
def keepNode (only out : List String) (np pp : String) : Bool :=
  outLoop np out (onlyLoop np pp only true)

/-- Rule preprocessing (lines 307-314): `None` becomes no rules, empty strings
are dropped and trailing slashes stripped. -/
def stripRules (rules : Option (List String)) : List String :=
  match rules with
  | none => []
  | some rs => (rs.filter (fun r => r ≠ "")).map rstripSlash

mutual

/-- The surviving copy of a kept node at path `np`: same fields, children
filtered in turn (a removed node disappears with its whole subtree). -/
def filterNode (only out : List String) (np : String) (t : MuxTreeNode) : MuxTreeNode :=
  match t with
  | .mk n v m ct cc => .mk n v m ct (filterChildren only out np cc)
termination_by structural t

def filterChildren (only out : List String) (pp : String) (nodes : List MuxTreeNode) :
    List MuxTreeNode :=
  match nodes with
  | [] => []
  | c :: cs =>
    let np := pp ++ "/" ++ c.name
    if keepNode only out np pp then
      filterNode only out np c :: filterChildren only out pp cs
    else filterChildren only out pp cs
termination_by structural nodes

end

/-- `apply_filters(root, filter_only, filter_out)` (yaml_to_mux.py 293-334). -/
def apply_filters (root : MuxTreeNode) (filter_only filter_out : Option (List String)) :
    MuxTreeNode :=
  let only := stripRules filter_only
  let out := stripRules filter_out
  MuxTreeNode.mk root.name root.value root.multiplex root.ctrl
    (filterChildren only out root.name root.children)

mutual

/-- The slash-joined paths of a node at path `np` and of all its descendants,
in preorder. -/
def nodePaths (np : String) (t : MuxTreeNode) : List String :=
  match t with
  | .mk _ _ _ _ cc => np :: forestPaths np cc
termination_by structural t

def forestPaths (pp : String) (nodes : List MuxTreeNode) : List String :=
  match nodes with
  | [] => []
  | c :: cs => nodePaths (pp ++ "/" ++ c.name) c ++ forestPaths pp cs
termination_by structural nodes

end

/-- The paths of all nodes of the tree, the root included. -/
def treePaths (root : MuxTreeNode) : List String :=
  root.name :: forestPaths root.name root.children

/-! ## Variant identity and façade (`MuxPlugin`, yaml_to_mux.py 387-432)

The cryptographic digest `sha.sha((...)).hexdigest()` is external; it is a
parameter `digest` of every definition that uses it. -/

/-- `MuxPlugin._get_variant_ids` (yaml_to_mux.py 398-405): for every variant,
sort the leaves by path, join their fingerprints with `-`, and emit the
dash-joined leaf names followed by a dash and the first four characters of the
hex digest of the joined fingerprints. -/
def getVariantIds (digest : String → String) (root : Option MuxTreeNode) : List String :=
  (MuxTree.variants root).map (fun variant =>
    let sorted := sortLeaves variant
    let fingerprint := "-".intercalate (sorted.map Leaf.fingerprint)
    ("-".intercalate (sorted.map Leaf.name)) ++ "-" ++ (digest fingerprint).take 4)

/-- The mutable attributes of a `MuxPlugin` instance (yaml_to_mux.py 391-396). -/
structure MuxPluginState : Type where
  root : MuxTreeNode
  variants : Option (List (List Leaf))
  default_params : Option MuxTreeNode
  mux_path : List String
  variant_ids : List String

/-- `MuxPlugin.__init__(root, mux_path)` (yaml_to_mux.py 391-396). -/
def MuxPlugin.init (digest : String → String) (root : MuxTreeNode)
    (mux_path : List String) : MuxPluginState :=
  { root := root
    variants := none
    default_params := none
    mux_path := mux_path
    variant_ids := getVariantIds digest (some root) }

/-- `MuxPlugin.update_defaults(defaults)` (yaml_to_mux.py 426-432), kept
faithful to the source's object flow: when defaults were already stored, the
incoming tree is merged into them — but that merged tree is then discarded,
because `self.default_params = defaults` rebinds the attribute to the incoming
tree itself, which (as `combination`) is subsequently mutated in place by
`combination.merge(self.root)`.  The stored `default_params` therefore ends up
being the combination tree, and the previously stored defaults are lost. -/
def MuxPlugin.update_defaults (s : MuxPluginState) (defaults : MuxTreeNode) :
    MuxPluginState :=
  let _discardedMerge := s.default_params.map (fun dp => dp.merge defaults)
  let combination := defaults.merge s.root
  { s with
    default_params := some combination
    variants := some (MuxTree.variants (some combination)) }

/-- `MuxPlugin.__iter__` (yaml_to_mux.py 407-418): `itertools.izip` of the
cached `variant_ids` with the stored `variants` (izip stops at the shorter
sequence; `self.variants` is `None` until `update_defaults` ran). -/
def MuxPlugin.iterPairs (s : MuxPluginState) : List (String × List Leaf) :=
  s.variant_ids.zip (s.variants.getD [])

/-! ## The `include` directive (yaml_to_mux.py 123-131)

Path arithmetic models Python's `posixpath` functions; the filesystem and the
recursive yaml load are parameters. -/

/-- Python's `os.path.isabs` for POSIX paths. -/
def os_path_isabs (p : String) : Bool :=
  match p.toList with
  | '/' :: _ => true
  | _ => false

/-- Python's `os.path.dirname` for POSIX paths: the prefix up to the last
`'/'`, with trailing slashes stripped unless the result is all slashes. -/
def os_path_dirname (p : String) : String :=
  let head := (p.toList.reverse.dropWhile (fun c => c ≠ '/')).reverse
  if head.isEmpty || head.all (fun c => c = '/') then String.mk head
  else String.mk ((head.reverse.dropWhile (fun c => c = '/')).reverse)

/-- Python's `os.path.join` for POSIX paths, two arguments. -/
def os_path_join (a b : String) : String :=
  if os_path_isabs b then b
  else if a = "" then b
  else match a.toList.getLast? with
    | some '/' => a ++ b
    | _ => a ++ "/" ++ b

/-- Resolution of an `!include` target (yaml_to_mux.py 125-127): an absolute
path is used as is, a relative one is joined to the directory of the
including document. -/
def resolveIncludePath (path ypath : String) : String :=
  if os_path_isabs ypath then ypath
  else os_path_join (os_path_dirname path) ypath

/-- The `YAML_INCLUDE` branch of `tree_node_from_values` (yaml_to_mux.py
123-131): resolve the target, fail with an error naming the resolved target
and the including document when it does not exist, and otherwise merge the
recursively loaded tree (the loader is called with the `/:`-prefixed locator)
into the node being built.  `fsExists` models `os.path.exists` and `load`
models the recursive `_create_from_yaml`. -/
def includeDirective (fsExists : String → Bool) (load : String → MuxTreeNode)
    (path : String) (node : MuxTreeNode) (ypath : String) :
    Except String MuxTreeNode :=
  let y := resolveIncludePath path ypath
  if fsExists y then .ok (node.merge (load ("/:" ++ y)))
  else .error ("File " ++ y ++ " included from " ++ path ++ " does not exist.")

/-! ## Example trees used by the witness theorems -/

/-- The example of spec §8: `/run` with a multiplex domain `os` of two
alternatives and a plain sibling leaf `timeout`. -/
def egTree : MuxTreeNode :=
  .mk "" [] none [] [
    .mk "run" [] none [] [
      .mk "os" [] (some true) [] [
        .mk "linux" [("pkg", "rpm")] none [] [],
        .mk "bsd" [("pkg", "pkg")] none [] []],
      .mk "timeout" [("seconds", "30")] none [] []]]

/-- Two independent multiplex domains of sizes 2 and 3 plus a plain leaf. -/
def egTwoDomains : MuxTreeNode :=
  .mk "" [] none [] [
    .mk "run" [] none [] [
      .mk "os" [] (some true) [] [
        .mk "linux" [] none [] [],
        .mk "bsd" [] none [] []],
      .mk "disk" [] (some true) [] [
        .mk "ide" [] none [] [],
        .mk "scsi" [] none [] [],
        .mk "virtio" [] none [] []],
      .mk "timeout" [("seconds", "30")] none [] []]]

/-- A tree without any multiplex flag. -/
def egNoMux : MuxTreeNode :=
  .mk "" [] none [] [
    .mk "run" [] none [] [
      .mk "a" [("x", "1")] none [] [],
      .mk "b" [] none [] [
        .mk "c" [("y", "2")] none [] []]]]

/-!
# Theorems

General lemmas first, then one theorem per claim (with witnesses where the
claim's theorem carries hypotheses).
-/

/-! ## Cartesian-product lemmas -/

theorem cartProd_length (ps : List (List (List Leaf))) :
    (cartProd ps).length = (ps.map List.length).prod := by
  induction ps with
  | nil => rfl
  | cons pool rest ih =>
    have hconst : (List.length ∘ fun alt : List Leaf =>
        List.map (fun tail => alt ++ tail) (cartProd rest)) =
        fun _ => (List.map List.length rest).prod := by
      funext alt
      simp [ih]
    simp only [cartProd, List.length_flatMap, List.map_cons, List.prod_cons, hconst]
    rw [List.map_const', List.sum_replicate, smul_eq_mul]

theorem mem_cartProd {v : List Leaf} : ∀ {ps : List (List (List Leaf))},
    v ∈ cartProd ps ↔
      ∃ choices, List.Forall₂ (fun alt pool => alt ∈ pool) choices ps ∧ v = choices.flatten := by
  intro ps
  induction ps generalizing v with
  | nil =>
    constructor
    · intro hv
      refine ⟨[], List.Forall₂.nil, ?_⟩
      simpa [cartProd] using hv
    · rintro ⟨choices, hf, rfl⟩
      cases hf
      simp [cartProd]
  | cons pool rest ih =>
    constructor
    · intro hv
      simp only [cartProd, List.mem_flatMap, List.mem_map] at hv
      obtain ⟨alt, halt, tail, htail, rfl⟩ := hv
      obtain ⟨choices, hf, rfl⟩ := ih.mp htail
      exact ⟨alt :: choices, List.Forall₂.cons halt hf, by simp⟩
    · rintro ⟨choices, hf, rfl⟩
      cases hf with
      | cons halt hrest =>
        simp only [cartProd, List.mem_flatMap, List.mem_map]
        exact ⟨_, halt, _, ih.mpr ⟨_, hrest, rfl⟩, by simp⟩

theorem cartProd_singletons (ls : List Leaf) :
    cartProd (ls.map (fun l => [[l]])) = [ls] := by
  induction ls with
  | nil => rfl
  | cons x xs ih => simp [cartProd, ih]

/-! ## Claim C2 -/

/-- C2: for every `merge(target, incoming)`, an incoming `multiplex` of
`true` or `false` overwrites the target's flag, while an unset (`none`)
incoming flag leaves the target's flag unchanged — the flag is tri-state and
`unset` is distinct from `false`. -/
theorem claim_C2 (t o : MuxTreeNode) :
    (t.merge o).multiplex =
      match o.multiplex with
      | some b => some b
      | none => t.multiplex := by
  cases o with
  | mk n v m c cs =>
    cases m with
    | none => simp [MuxTreeNode.merge, MuxTreeNode.multiplex]
    | some b => cases b <;> simp [MuxTreeNode.merge, MuxTreeNode.multiplex]

/-! ## Claim C5 -/

mutual

theorem poolsAt_pool_pos (p : String) (t : MuxTreeNode) :
    ∀ pool ∈ poolsAt p t, 0 < pool.length := by
  match t with
  | .mk n v m ct [] => intro pool hp; simp [poolsAt] at hp; simp [hp]
  | .mk n v m ct (c :: cs) =>
    intro pool hp
    by_cases hm : m = some true
    · simp [poolsAt, hm] at hp
      subst hp
      exact muxAlternatives_pos p (c :: cs) (by simp)
    · simp [poolsAt, hm, List.mem_append] at hp
      rcases hp with hp | hp
      · exact poolsAt_pool_pos _ c pool hp
      · exact poolsForest_pool_pos p cs pool hp
termination_by structural t

theorem poolsForest_pool_pos (p : String) (cs : List MuxTreeNode) :
    ∀ pool ∈ poolsForest p cs, 0 < pool.length := by
  match cs with
  | [] => intro pool hp; simp [poolsForest] at hp
  | c :: rest =>
    intro pool hp
    simp [poolsForest, List.mem_append] at hp
    rcases hp with hp | hp
    · exact poolsAt_pool_pos _ c pool hp
    · exact poolsForest_pool_pos p rest pool hp
termination_by structural cs

theorem muxAlternatives_pos (p : String) (cs : List MuxTreeNode) (h : cs ≠ []) :
    0 < (muxAlternatives p cs).length := by
  match cs with
  | c :: rest =>
    have h1 : 0 < (cartProd (poolsAt (p ++ "/" ++ c.name) c)).length := by
      rw [cartProd_length]
      exact List.prod_pos (by
        intro x hx
        simp only [List.mem_map] at hx
        obtain ⟨pool, hpool, rfl⟩ := hx
        exact poolsAt_pool_pos _ c pool hpool)
    simp [muxAlternatives]
    omega
termination_by structural cs

end

/-- C5 (amended): enumeration is total, and when there are no pools at all
(`MuxTree(None)`) the product of zero pools yields exactly one empty variant —
one variant, not zero; a real tree always yields at least one variant, since
an empty root is itself a leaf pool. -/
theorem claim_C5 :
    MuxTree.variants none = [[]] ∧
      ∀ t : MuxTreeNode, MuxTree.variants (some t) ≠ [] := by
  constructor
  · rfl
  · intro t
    have hlen : 0 < (MuxTree.variants (some t)).length := by
      unfold MuxTree.variants MuxTree.pools
      rw [cartProd_length]
      exact List.prod_pos (by
        intro x hx
        simp only [List.mem_map] at hx
        obtain ⟨pool, hpool, rfl⟩ := hx
        exact poolsAt_pool_pos _ t pool hpool)
    intro hcontra
    rw [hcontra] at hlen
    simp at hlen

/-- C5, counterexample to the claim as stated: for a tree with no pools the
enumeration does not yield zero variants. -/
theorem claim_C5_counterexample : MuxTree.variants none ≠ [] := by decide

/-! ## Claim C7 -/

/-- C7: `include(path)` with a non-absolute path resolves it relative to the
including document's directory (`sub.yaml` from `/tmp/a/main.yaml` gives
`/tmp/a/sub.yaml`); a missing target fails with a load error naming the
resolved target and the including document; an existing target is recursively
loaded and merged into the node being built. -/
theorem claim_C7 (fs : String → Bool) (load : String → MuxTreeNode)
    (path : String) (node : MuxTreeNode) (ypath : String) :
    resolveIncludePath "/tmp/a/main.yaml" "sub.yaml" = "/tmp/a/sub.yaml" ∧
      (fs (resolveIncludePath path ypath) = false →
        includeDirective fs load path node ypath =
          .error ("File " ++ resolveIncludePath path ypath ++ " included from " ++
            path ++ " does not exist.")) ∧
      (fs (resolveIncludePath path ypath) = true →
        includeDirective fs load path node ypath =
          .ok (node.merge (load ("/:" ++ resolveIncludePath path ypath)))) := by
  refine ⟨by decide, ?_, ?_⟩ <;> intro h <;> simp [includeDirective, h]

/-- C7 witness: a concrete missing include fails with the expected error, and
a concrete present include merges the loaded tree. -/
theorem claim_C7_witness :
    includeDirective (fun _ => false) (fun _ => .mk "" [] none [] [])
        "/tmp/a/main.yaml" (.mk "" [] none [] []) "sub.yaml" =
      .error ("File " ++ resolveIncludePath "/tmp/a/main.yaml" "sub.yaml" ++
        " included from " ++ "/tmp/a/main.yaml" ++ " does not exist.") :=
  (claim_C7 (fun _ => false) (fun _ => .mk "" [] none [] [])
    "/tmp/a/main.yaml" (.mk "" [] none [] []) "sub.yaml").2.1 rfl

/-! ## Claim C8 -/

/-- C8: evaluation of the code at the failing input.  Store defaults
`{a: 1}`, then call `update_defaults` with `{b: 2}` (empty root): the claim
says the stored defaults are merged — the combination should still carry
`a = 1` — but the code rebinds `default_params` to the incoming tree (the
merged tree is discarded) and merges the root into it, so the key `a` is
lost. -/
theorem claim_C8 :
    ((MuxPlugin.update_defaults
        (MuxPlugin.update_defaults
          (MuxPlugin.init (fun _ => "0000") (.mk "" [] none [] []) [])
          (.mk "" [("a", "1")] none [] []))
        (.mk "" [("b", "2")] none [] [])).default_params.map MuxTreeNode.value)
      = some [("b", "2")] ∧
    ¬ ("a", "1") ∈ [(("b", "2") : String × String)] := by
  constructor
  · decide
  · decide

/-! ## Claim C10 -/

/-- C10: `MuxPlugin` computes `variant_ids` once at construction from the root
tree alone; `update_defaults` replaces `variants` and `default_params`
(with data derived from the defaults-merged combination tree) but leaves
`variant_ids` unchanged, so iteration pairs the construction-time identifiers
with the combination-tree variants. -/
theorem claim_C10 (digest : String → String) (root : MuxTreeNode)
    (mux_path : List String) (s : MuxPluginState) (d : MuxTreeNode) :
    (MuxPlugin.init digest root mux_path).variant_ids = getVariantIds digest (some root) ∧
      (MuxPlugin.update_defaults s d).variant_ids = s.variant_ids ∧
      (MuxPlugin.update_defaults s d).variants =
        some (MuxTree.variants (some (d.merge s.root))) ∧
      (MuxPlugin.update_defaults s d).default_params = some (d.merge s.root) ∧
      MuxPlugin.iterPairs (MuxPlugin.update_defaults s d) =
        s.variant_ids.zip (MuxTree.variants (some (d.merge s.root))) := by
  refine ⟨rfl, rfl, rfl, rfl, ?_⟩
  simp [MuxPlugin.iterPairs, MuxPlugin.update_defaults]

/-! ## Claims C6 and C1 -/

mutual

theorem poolsAt_of_noMux (p : String) (t : MuxTreeNode) (h : noMux t = true) :
    poolsAt p t = (leavesAt p t).map (fun l => [[l]]) := by
  match t with
  | .mk n v m ct [] => simp [poolsAt, leavesAt]
  | .mk n v m ct (c :: cs) =>
    simp only [noMux, Bool.and_eq_true, decide_eq_true_eq] at h
    obtain ⟨hm, hf⟩ := h
    simp only [noMuxForest, Bool.and_eq_true] at hf
    simp only [poolsAt, leavesAt, if_neg hm, List.map_append]
    rw [poolsAt_of_noMux _ c hf.1, poolsForest_of_noMux p cs hf.2]
termination_by structural t

theorem poolsForest_of_noMux (p : String) (cs : List MuxTreeNode)
    (h : noMuxForest cs = true) :
    poolsForest p cs = (leavesForest p cs).map (fun l => [[l]]) := by
  match cs with
  | [] => simp [poolsForest, leavesForest]
  | c :: rest =>
    simp only [noMuxForest, Bool.and_eq_true] at h
    simp only [poolsForest, leavesForest, List.map_append]
    rw [poolsAt_of_noMux _ c h.1, poolsForest_of_noMux p rest h.2]
termination_by structural cs

end

/-- C6: a tree with zero multiplex-flagged nodes partitions into exactly one
pool per leaf, and enumeration yields exactly one variant containing every
leaf of the tree (in preorder). -/
theorem claim_C6 (t : MuxTreeNode) (h : noMux t = true) :
    (MuxTree.pools (some t)).length = (leavesAt t.name t).length ∧
      MuxTree.variants (some t) = [leavesAt t.name t] := by
  have hp := poolsAt_of_noMux t.name t h
  constructor
  · simp [MuxTree.pools, hp]
  · simp [MuxTree.variants, MuxTree.pools, hp, cartProd_singletons]

/-- C6 witness: the mux-free example tree has one pool per leaf and a single
variant holding all three leaves. -/
theorem claim_C6_witness :
    (MuxTree.pools (some egNoMux)).length = (leavesAt egNoMux.name egNoMux).length ∧
      MuxTree.variants (some egNoMux) = [leavesAt egNoMux.name egNoMux] :=
  claim_C6 egNoMux (by decide)

theorem muxAlternatives_length (p : String) (cs : List MuxTreeNode)
    (h : noMuxForest cs = true) :
    (muxAlternatives p cs).length = cs.length := by
  induction cs with
  | nil => rfl
  | cons c rest ih =>
    simp only [noMuxForest, Bool.and_eq_true] at h
    simp only [muxAlternatives, List.length_append, List.length_cons]
    rw [poolsAt_of_noMux _ c h.1, cartProd_singletons, ih h.2]
    simp [Nat.add_comm]

mutual

theorem poolsAt_sizes (p : String) (t : MuxTreeNode) (h : nonNested t = true) :
    ((poolsAt p t).map List.length).prod = (domainSizes t).prod := by
  match t with
  | .mk n v m ct [] => simp [poolsAt, domainSizes]
  | .mk n v m ct (c :: cs) =>
    by_cases hm : m = some true
    · simp only [nonNested, if_pos hm] at h
      simp only [poolsAt, if_pos hm, domainSizes]
      simp [muxAlternatives_length _ _ h]
    · simp only [nonNested, if_neg hm] at h
      simp only [nonNestedForest, Bool.and_eq_true] at h
      simp only [poolsAt, if_neg hm, domainSizes, List.map_append, List.prod_append]
      rw [poolsAt_sizes _ c h.1, poolsForest_sizes p cs h.2]
termination_by structural t

theorem poolsForest_sizes (p : String) (cs : List MuxTreeNode)
    (h : nonNestedForest cs = true) :
    ((poolsForest p cs).map List.length).prod = (domainSizesForest cs).prod := by
  match cs with
  | [] => simp [poolsForest, domainSizesForest]
  | c :: rest =>
    simp only [nonNestedForest, Bool.and_eq_true] at h
    simp only [poolsForest, domainSizesForest, List.map_append, List.prod_append]
    rw [poolsAt_sizes _ c h.1, poolsForest_sizes p rest h.2]
termination_by structural cs

end

/-- C1: for a tree whose multiplex domains are independent (non-nested),
enumeration yields exactly the product of the domain sizes many variants, and
every variant is a flattening of one alternative drawn from each pool. -/
theorem claim_C1 (t : MuxTreeNode) (h : nonNested t = true) :
    (MuxTree.variants (some t)).length = (domainSizes t).prod ∧
      ∀ v ∈ MuxTree.variants (some t),
        ∃ choices,
          List.Forall₂ (fun alt pool => alt ∈ pool) choices (MuxTree.pools (some t)) ∧
            v = choices.flatten := by
  constructor
  · show (cartProd (poolsAt t.name t)).length = _
    rw [cartProd_length, poolsAt_sizes t.name t h]
  · intro v hv
    exact mem_cartProd.mp hv

/-- C1 witness: two independent domains of sizes 2 and 3 give 2·3 = 6
variants, and a concrete variant decomposes into one alternative per pool. -/
theorem claim_C1_witness :
    ((MuxTree.variants (some egTwoDomains)).length = (domainSizes egTwoDomains).prod ∧
        (domainSizes egTwoDomains).prod = 6) ∧
      ∃ choices,
        List.Forall₂ (fun alt pool => alt ∈ pool) choices (MuxTree.pools (some egTwoDomains)) ∧
          ([⟨"/run/os/linux", "linux", []⟩, ⟨"/run/disk/ide", "ide", []⟩,
            ⟨"/run/timeout", "timeout", [("seconds", "30")]⟩] : List Leaf) = choices.flatten :=
  ⟨⟨(claim_C1 egTwoDomains (by decide)).1, by decide⟩,
    (claim_C1 egTwoDomains (by decide)).2 _ (by decide)⟩

/-! ## Claim C3 -/

theorem lexLe_total : ∀ as bs : List Char, lexLe as bs = true ∨ lexLe bs as = true := by
  intro as
  induction as with
  | nil => intro bs; left; simp [lexLe]
  | cons a as ih =>
    intro bs
    cases bs with
    | nil => right; simp [lexLe]
    | cons b bs =>
      by_cases hab : a = b
      · subst hab
        rcases ih bs with h | h
        · left; simpa [lexLe] using h
        · right; simpa [lexLe] using h
      · rcases lt_or_gt_of_ne hab with h | h
        · left
          simp only [lexLe, if_neg hab]
          exact decide_eq_true h
        · right
          simp only [lexLe, if_neg (Ne.symm hab)]
          exact decide_eq_true h

theorem lexLe_trans : ∀ as bs cs : List Char,
    lexLe as bs = true → lexLe bs cs = true → lexLe as cs = true := by
  intro as
  induction as with
  | nil => intro bs cs _ _; simp [lexLe]
  | cons a as ih =>
    intro bs cs h1 h2
    cases bs with
    | nil => simp [lexLe] at h1
    | cons b bs =>
      cases cs with
      | nil => simp [lexLe] at h2
      | cons c cs =>
        by_cases hab : a = b <;> by_cases hbc : b = c
        · subst hab; subst hbc
          simp only [lexLe, if_pos rfl] at h1 h2 ⊢
          exact ih bs cs h1 h2
        · subst hab
          have hac : a ≠ c := hbc
          simp only [lexLe, if_pos rfl] at h1
          simp only [lexLe, if_neg hbc] at h2
          simp only [lexLe, if_neg hac]
          exact h2
        · subst hbc
          have hac : a ≠ b := hab
          simp only [lexLe, if_neg hab] at h1
          simp only [lexLe, if_neg hac]
          exact h1
        · simp only [lexLe, if_neg hab] at h1
          simp only [lexLe, if_neg hbc] at h2
          have h1' : a < b := of_decide_eq_true h1
          have h2' : b < c := of_decide_eq_true h2
          have hlt : a < c := lt_trans h1' h2'
          have hac : a ≠ c := ne_of_lt hlt
          simp only [lexLe, if_neg hac]
          exact decide_eq_true hlt

theorem pathLe_total (a b : String) : pathLe a b = true ∨ pathLe b a = true :=
  lexLe_total _ _

theorem pathLe_trans {a b c : String} (h1 : pathLe a b = true) (h2 : pathLe b c = true) :
    pathLe a c = true :=
  lexLe_trans _ _ _ h1 h2

theorem insertLeaf_perm (x : Leaf) (l : List Leaf) : (insertLeaf x l).Perm (x :: l) := by
  induction l with
  | nil => exact List.Perm.refl _
  | cons y ys ih =>
    simp only [insertLeaf]
    by_cases h : pathLe x.path y.path = true
    · rw [if_pos h]
    · rw [if_neg h]
      exact (ih.cons y).trans (List.Perm.swap x y ys)

theorem sortLeaves_perm (l : List Leaf) : (sortLeaves l).Perm l := by
  induction l with
  | nil => exact List.Perm.refl _
  | cons x xs ih => exact (insertLeaf_perm x (sortLeaves xs)).trans (ih.cons x)

theorem mem_insertLeaf {z x : Leaf} {l : List Leaf} (hz : z ∈ insertLeaf x l) :
    z = x ∨ z ∈ l := by
  have := (insertLeaf_perm x l).mem_iff.mp hz
  simpa using this

theorem insertLeaf_pairwise (x : Leaf) (l : List Leaf)
    (h : l.Pairwise (fun a b => pathLe a.path b.path = true)) :
    (insertLeaf x l).Pairwise (fun a b => pathLe a.path b.path = true) := by
  induction l with
  | nil => simp [insertLeaf]
  | cons y ys ih =>
    rcases List.pairwise_cons.mp h with ⟨hy, hys⟩
    simp only [insertLeaf]
    by_cases hxy : pathLe x.path y.path = true
    · rw [if_pos hxy]
      refine List.pairwise_cons.mpr ⟨?_, h⟩
      intro z hz
      rcases List.mem_cons.mp hz with rfl | hz
      · exact hxy
      · exact pathLe_trans hxy (hy z hz)
    · have hyx : pathLe y.path x.path = true := (pathLe_total _ _).resolve_left hxy
      rw [if_neg hxy]
      refine List.pairwise_cons.mpr ⟨?_, ih hys⟩
      intro z hz
      rcases mem_insertLeaf hz with rfl | hz
      · exact hyx
      · exact hy z hz

theorem sortLeaves_pairwise (l : List Leaf) :
    (sortLeaves l).Pairwise (fun a b => pathLe a.path b.path = true) := by
  induction l with
  | nil => simp [sortLeaves]
  | cons x xs ih => exact insertLeaf_pairwise x _ ih

/-- C3: every `variant_id` is the dash-joined names of the variant's leaves
after a stable sort that puts them in lexicographic path order (the sorted
list is a path-sorted permutation of the variant), followed by a dash and the
first four characters of the digest of the dash-joined leaf fingerprints
(each fingerprint encoding the leaf's path and value mapping). -/
theorem claim_C3 (digest : String → String) (root : Option MuxTreeNode) :
    getVariantIds digest root = (MuxTree.variants root).map (fun v =>
      ("-".intercalate ((sortLeaves v).map Leaf.name)) ++ "-" ++
        (digest ("-".intercalate ((sortLeaves v).map Leaf.fingerprint))).take 4) ∧
      ∀ v : List Leaf, (sortLeaves v).Perm v ∧
        (sortLeaves v).Pairwise (fun a b => pathLe a.path b.path = true) :=
  ⟨rfl, fun v => ⟨sortLeaves_perm v, sortLeaves_pairwise v⟩⟩

/-! ## Claims C4 and C9 -/

theorem filterNode_name (only out : List String) (np : String) (t : MuxTreeNode) :
    (filterNode only out np t).name = t.name := by
  cases t
  simp [filterNode, MuxTreeNode.name]

theorem outLoop_false (p : String) (rules : List String) (k : Bool)
    (hmem : p ∈ rules) (hne : p ≠ "") : outLoop p rules k = false := by
  induction rules generalizing k with
  | nil => cases hmem
  | cons r rest ih =>
    rcases List.mem_cons.mp hmem with rfl | hmem
    · simp [outLoop, hne]
    · by_cases hr : r = ""
      · simp [outLoop, hr]
        exact ih k hmem
      · by_cases hp : p = r
        · simp [outLoop, hr, hp]
        · simp [outLoop, hr, hp]
          exact ih k hmem

theorem keepNode_false_of_mem_out (only out : List String) (p pp : String)
    (hmem : p ∈ out) (hne : p ≠ "") : keepNode only out p pp = false :=
  outLoop_false p out _ hmem hne

mutual

theorem nodePaths_filterNode_not_mem (only out : List String) (p np : String)
    (t : MuxTreeNode) (hmem : p ∈ out) (hne : p ≠ "") (hnp : np ≠ p) :
    p ∉ nodePaths np (filterNode only out np t) := by
  match t with
  | .mk n v m ct cc =>
    simp only [filterNode, nodePaths, List.mem_cons]
    intro hcontra
    rcases hcontra with hcontra | hcontra
    · exact hnp hcontra.symm
    · exact forestPaths_filterChildren_not_mem only out p np cc hmem hne hcontra
termination_by structural t

theorem forestPaths_filterChildren_not_mem (only out : List String) (p pp : String)
    (nodes : List MuxTreeNode) (hmem : p ∈ out) (hne : p ≠ "") :
    p ∉ forestPaths pp (filterChildren only out pp nodes) := by
  match nodes with
  | [] => simp [filterChildren, forestPaths]
  | c :: cs =>
    by_cases hk : keepNode only out (pp ++ "/" ++ c.name) pp = true
    · simp only [filterChildren, if_pos hk, forestPaths, filterNode_name, List.mem_append]
      have hnp : pp ++ "/" ++ c.name ≠ p := by
        intro he
        rw [he] at hk
        rw [keepNode_false_of_mem_out only out p pp hmem hne] at hk
        cases hk
      intro hcontra
      rcases hcontra with hcontra | hcontra
      · exact nodePaths_filterNode_not_mem only out p _ c hmem hne hnp hcontra
      · exact forestPaths_filterChildren_not_mem only out p pp cs hmem hne hcontra
    · simp only [filterChildren, if_neg hk]
      exact forestPaths_filterChildren_not_mem only out p pp cs hmem hne
termination_by structural nodes

end

theorem mem_stripRules (p : String) (rs : List String) (hmem : p ∈ rs)
    (hne : p ≠ "") (hstrip : rstripSlash p = p) : p ∈ stripRules (some rs) := by
  simp only [stripRules, List.mem_map]
  exact ⟨p, List.mem_filter.mpr ⟨hmem, by simpa using hne⟩, hstrip⟩

/-- C4: a node whose path occurs among both the `only` and the `exclude`
targets is removed together with its subtree — the exclude match wins over
any `only` rule.  (The root node of the engine has the empty name, and rules
are non-empty strings without a trailing slash, which the preprocessing would
strip.) -/
theorem claim_C4 (root : MuxTreeNode) (onlys outs : List String) (p : String)
    (hroot : root.name = "") (hne : p ≠ "") (hstrip : rstripSlash p = p)
    (_honly : p ∈ onlys) (hout : p ∈ outs) :
    p ∉ treePaths (apply_filters root (some onlys) (some outs)) := by
  have hmem : p ∈ stripRules (some outs) := mem_stripRules p outs hout hne hstrip
  cases root with
  | mk n v m ct cc =>
    simp only [MuxTreeNode.name] at hroot
    subst hroot
    simp only [apply_filters, treePaths, MuxTreeNode.name, MuxTreeNode.value,
      MuxTreeNode.multiplex, MuxTreeNode.ctrl, MuxTreeNode.children, List.mem_cons]
    intro hcontra
    rcases hcontra with hcontra | hcontra
    · exact hne hcontra
    · exact forestPaths_filterChildren_not_mem _ _ p _ cc hmem hne hcontra

/-- C4 witness: `/run/os` listed in both rule sets is removed from the spec
§8 example tree. -/
theorem claim_C4_witness :
    "/run/os" ∉ treePaths (apply_filters egTree (some ["/run/os"]) (some ["/run/os"])) :=
  claim_C4 egTree ["/run/os"] ["/run/os"] "/run/os" (by decide) (by decide)
    (by decide) (by decide) (by decide)

mutual

theorem filterNode_idem (only out : List String) (np : String) (t : MuxTreeNode) :
    filterNode only out np (filterNode only out np t) = filterNode only out np t := by
  match t with
  | .mk n v m ct cc =>
    simp only [filterNode]
    rw [filterChildren_idem only out np cc]
termination_by structural t

theorem filterChildren_idem (only out : List String) (pp : String)
    (nodes : List MuxTreeNode) :
    filterChildren only out pp (filterChildren only out pp nodes) =
      filterChildren only out pp nodes := by
  match nodes with
  | [] => simp [filterChildren]
  | c :: cs =>
    by_cases hk : keepNode only out (pp ++ "/" ++ c.name) pp = true
    · rw [filterChildren, if_pos hk]
      rw [filterChildren]
      simp only [filterNode_name]
      rw [if_pos hk, filterNode_idem only out _ c, filterChildren_idem only out pp cs]
    · rw [filterChildren, if_neg hk]
      exact filterChildren_idem only out pp cs
termination_by structural nodes

end

/-- C9: applying `apply_filters` a second time with the same rules to an
already-filtered tree changes nothing — filtering is idempotent. -/
theorem claim_C9 (root : MuxTreeNode) (filter_only filter_out : Option (List String)) :
    apply_filters (apply_filters root filter_only filter_out) filter_only filter_out =
      apply_filters root filter_only filter_out := by
  cases root with
  | mk n v m ct cc =>
    simp only [apply_filters, MuxTreeNode.name, MuxTreeNode.value, MuxTreeNode.multiplex,
      MuxTreeNode.ctrl, MuxTreeNode.children]
    rw [filterChildren_idem]

end YamlToMux

